import Mathlib

/-!
Verification of the string-based decimal rounder (`str_sround`, `f64_sround`)
and the boundary-value generator (`RoundTestIter`) of the rounding harness.

Strings are embedded as lists of byte values (`List Nat`); the relevant byte
constants are 45 `'-'`, 46 `'.'`, 48 `'0'`, 49 `'1'`, 52 `'4'`, 53 `'5'`,
57 `'9'`, 97 `'a'`, 98 `'b'`.  A `Vec<u8>` used as a stack (popping and
pushing at the end) is modelled by the reversed list, whose head is the top
of the stack.
-/

/-- Tie-breaking policy for the rounders (source: `enum Policy`). -/
inductive Policy where
  | ToEven
  | AwayFromZero
deriving DecidableEq

/-- The carry-increment loop of `str_sround` (source lines 262-297).  It is
given the reversed working buffer (the head is the last byte of the buffer)
together with the inspected digit `ch` and the accumulators `frac`, `intc`
and `isf` (`is_frac` in the source).  It returns the reversed buffer after
the loop's `break`, together with the final accumulator values. -/
def incrLoop (ch : Nat) (policy : Policy) :
    List Nat → Nat → Nat → Bool → List Nat × Nat × Nat × Bool
  | [], frac, intc, isf => ([49], frac, intc, isf)
  | c :: rest, frac, intc, isf =>
    if c = 57 ∧ isf = true then incrLoop ch policy rest (frac + 1) intc isf
    else if c = 46 then incrLoop ch policy rest frac intc false
    else if c = 57 then incrLoop ch policy rest frac (intc + 1) isf
    else if c = 45 then (49 :: 45 :: rest, frac, intc, isf)
    else
      match policy with
      | .ToEven =>
          if 53 < ch ∨ c % 2 = 1 ∨ frac ≠ 0 ∨ intc ≠ 0 then
            ((c + 1) :: rest, frac, intc, isf)
          else (c :: rest, frac, intc, isf)
      | .AwayFromZero => ((c + 1) :: rest, frac, intc, isf)

/-- The body of the `Some(pos)` branch of `str_sround` (source lines 251-309),
before the final point-removal check.  Returns the new buffer together with
the (possibly updated) radix-point index `pos`. -/
def roundCore (n : List Nat) (pos pr : Nat) (policy : Policy) : List Nat × Nat :=
  let prec := n.length - pos - 1
  if prec < pr then (n ++ List.replicate (pr - prec) 48, pos)
  else if pr < prec then
    let ch := n.getD (pos + pr + 1) 0
    let s1 := n.take (pos + pr + 1)
    if 53 ≤ ch then
      let r := incrLoop ch policy s1.reverse 0 0 true
      let rs := r.1
      let frac := r.2.1
      let intc := r.2.2.1
      let isf := r.2.2.2
      if isf = true then (rs.reverse ++ List.replicate frac 48, pos)
      else
        (rs.reverse ++ (List.replicate intc 48 ++ 46 :: List.replicate frac 48),
         pos + intc)
    else (s1, pos)
  else (n, pos)

/-- The final check of `str_sround` (source lines 310-313): the last byte is
popped when the buffer length equals `pos + 1`. -/
def pointPop (sp : List Nat × Nat) : List Nat :=
  if sp.1.length = sp.2 + 1 then sp.1.dropLast else sp.1

/-- String-based rounding (source: `str_sround`, lines 241-318). -/
def str_sround (n : List Nat) (pr : Nat) (policy : Policy) : List Nat :=
  match n.findIdx? (fun x => x == 46) with
  | none => n ++ 46 :: List.replicate pr 48
  | some pos => pointPop (roundCore n pos pr policy)

/-- Safety-checked variant of `incrLoop`: it returns `none` whenever a digit
increment would leave the digit range `'0'..'9'` (the pushed byte `c + 1`
must satisfy `48 ≤ c + 1 ≤ 57`). -/
def incrLoopChecked (ch : Nat) (policy : Policy) :
    List Nat → Nat → Nat → Bool → Option (List Nat × Nat × Nat × Bool)
  | [], frac, intc, isf => some ([49], frac, intc, isf)
  | c :: rest, frac, intc, isf =>
    if c = 57 ∧ isf = true then incrLoopChecked ch policy rest (frac + 1) intc isf
    else if c = 46 then incrLoopChecked ch policy rest frac intc false
    else if c = 57 then incrLoopChecked ch policy rest frac (intc + 1) isf
    else if c = 45 then some (49 :: 45 :: rest, frac, intc, isf)
    else
      match policy with
      | .ToEven =>
          if 53 < ch ∨ c % 2 = 1 ∨ frac ≠ 0 ∨ intc ≠ 0 then
            if 48 ≤ c ∧ c ≤ 56 then some ((c + 1) :: rest, frac, intc, isf) else none
          else some (c :: rest, frac, intc, isf)
      | .AwayFromZero =>
          if 48 ≤ c ∧ c ≤ 56 then some ((c + 1) :: rest, frac, intc, isf) else none

/-- Safety-checked variant of `roundCore`: it returns `none` when the
inspected-digit lookup `s.iter().nth(pos + pr + 1).unwrap()` would be out of
bounds, or when a digit increment would leave `'0'..'9'`. -/
def roundCoreChecked (n : List Nat) (pos pr : Nat) (policy : Policy) :
    Option (List Nat × Nat) :=
  let prec := n.length - pos - 1
  if prec < pr then some (n ++ List.replicate (pr - prec) 48, pos)
  else if pr < prec then
    if pos + pr + 1 < n.length then
      let ch := n.getD (pos + pr + 1) 0
      let s1 := n.take (pos + pr + 1)
      if 53 ≤ ch then
        match incrLoopChecked ch policy s1.reverse 0 0 true with
        | none => none
        | some r =>
          if r.2.2.2 = true then some (r.1.reverse ++ List.replicate r.2.1 48, pos)
          else
            some (r.1.reverse ++
                    (List.replicate r.2.2.1 48 ++ 46 :: List.replicate r.2.1 48),
                  pos + r.2.2.1)
      else some (s1, pos)
    else none
  else some (n, pos)

/-- Safety-checked variant of `str_sround`. -/
def str_sroundChecked (n : List Nat) (pr : Nat) (policy : Policy) : Option (List Nat) :=
  match n.findIdx? (fun x => x == 46) with
  | none => some (n ++ 46 :: List.replicate pr 48)
  | some pos => (roundCoreChecked n pos pr policy).map pointPop

/-- Rounding of a floating-point value (source: `f64_sround`, lines 219-226).
The floating-point type and its formatter are external to the core (the spec
treats the platform formatter as a black box), so they enter as an abstract
carrier `α` with a `to_string` rendering and an `is_normal` classifier. -/
def f64_sround {α : Type} (to_string : α → List Nat) (is_normal : α → Bool)
    (n : α) (pr : Nat) (policy : Policy) : List Nat :=
  let s := to_string n
  if is_normal n = false then s else str_sround s pr policy

/-- Model of the f64 value `0.0` as seen through the external interfaces used
by `f64_sround`: IEEE 754 classifies zero as not normal, and the platform
formatter renders it as `"0"` (byte 48). -/
def zeroToString : Unit → List Nat := fun _ => [48]

/-- `0.0.is_normal()` is `false`: IEEE 754 zero is not a normal number. -/
def zeroIsNormal : Unit → Bool := fun _ => false

/-- `c` is an ASCII digit byte. -/
def isDigit (c : Nat) : Bool := decide (48 ≤ c ∧ c ≤ 57)

/-- Well-formedness of the part of a decimal string after the optional
leading sign: a run of digits, optionally followed by a radix point and a
run of digits (spec data model, DecimalString). -/
def wfTail : List Nat → Bool
  | [] => true
  | c :: rest => if c = 46 then rest.all isDigit else isDigit c && wfTail rest

/-- The body of a decimal string: everything after the optional leading
sign. -/
def stripSign (v : List Nat) : List Nat :=
  match v with
  | [] => []
  | c :: m => if c = 45 then m else c :: m

/-- Well-formed DecimalString: optional leading sign, integer digits,
optional radix point followed by fractional digits. -/
def wf (n : List Nat) : Bool := wfTail (stripSign n)

/-- Length of the leading run of `'9'` bytes. -/
def lead9 : List Nat → Nat
  | [] => 0
  | c :: rest => if c = 57 then lead9 rest + 1 else 0

/-- Length of the trailing run of `'9'` bytes. -/
def trail9 (l : List Nat) : Nat := lead9 l.reverse

/-- The integer digits of a decimal string (sign stripped, up to the radix
point). -/
def intPart (v : List Nat) : List Nat :=
  (stripSign v).takeWhile (fun c => c ≠ 46)

/-- The fractional digits of a decimal string (after the radix point). -/
def fracPart (v : List Nat) : List Nat :=
  ((stripSign v).dropWhile (fun c => c ≠ 46)).drop 1

/-- Rounding `v` at precision `p` makes the carry cross the radix point:
there is an inspected digit, it is at least `'5'`, and all `p` kept
fractional digits are `'9'`. -/
def carryCross (v : List Nat) (p : Nat) : Bool :=
  decide (p < (fracPart v).length) && decide (53 ≤ (fracPart v).getD p 0) &&
    decide ((fracPart v).take p = List.replicate p 57)

/-- The inputs on which the point-removal check of `str_sround` mis-tracks
the radix point: the carry crosses the radix point and consumes a run of
integer `'9'` digits of length exactly `p` before stopping at a lower
integer digit, or the whole integer part consists of exactly `p + 1` nines
(so that a new leading `'1'` is prepended). -/
def badCarry (v : List Nat) (p : Nat) : Bool :=
  carryCross v p &&
    (if trail9 (intPart v) = (intPart v).length
     then decide ((intPart v).length = p + 1)
     else decide (trail9 (intPart v) = p))

/-! ## The boundary-value generator -/

/-- `Vec::pop` on a buffer in source order: returns the last element and the
remaining front. -/
def popLast : List Nat → Option (Nat × List Nat)
  | [] => none
  | [c] => some (c, [])
  | c :: c2 :: rest =>
    match popLast (c2 :: rest) with
    | some (d, r) => some (d, c :: r)
    | none => none

/-- The backtracking loop of `RoundTestIter::next` (source lines 132-145),
on the reversed buffer: pop trailing `'9'` digits (decrementing the
precision), then either increment the first lower digit and push a fresh
`'a'` step (incrementing the precision), or stop, consuming a radix point. -/
def backtrackRev : List Nat → Nat → List Nat × Nat
  | [], p => ([], p)
  | d :: rest, p =>
    if d = 57 then backtrackRev rest (p - 1)
    else if d ≠ 46 then (97 :: (d + 1) :: rest, p + 1)
    else (rest, p)

/-- The backtracking loop, on the buffer in source order. -/
def backtrack (base : List Nat) (p : Nat) : List Nat × Nat :=
  match backtrackRev base.reverse p with
  | (r, q) => (r.reverse, q)

/-- Iterator state (source: `struct RoundTestIter`). -/
structure RoundTestIter where
  base : List Nat
  precision : Nat
  max : Nat
deriving DecidableEq

/-- `RoundTestIter::new` (source lines 102-108). -/
def RoundTestIter.new (max : Nat) (negative : Bool) : RoundTestIter :=
  ⟨if negative then [45, 48, 46, 97] else [48, 46, 97], 1, max⟩

/-- `RoundTestIter::next` (source lines 118-155).  Since the Rust method
mutates the iterator even when it yields nothing, the model returns the
emitted item (if any) together with the successor state. -/
def RoundTestIter.next (it : RoundTestIter) : Option (List Nat × Nat) × RoundTestIter :=
  match popLast it.base with
  | some (step, rest) =>
    if 97 ≤ step then
      let value := rest ++ [step - 97 + 52]
      let item := (value, it.precision - 1)
      if step = 98 then
        if it.precision < it.max then
          (some item, ⟨rest ++ [48, 97], it.precision + 1, it.max⟩)
        else
          match backtrack rest (it.precision - 1) with
          | (b, p) => (some item, ⟨b, p, it.max⟩)
      else (some item, ⟨rest ++ [step + 1], it.precision, it.max⟩)
    else (none, ⟨rest, it.precision, it.max⟩)
  | none => (none, it)

/-- The state after `k` calls to `next`. -/
def nextN (it : RoundTestIter) : Nat → RoundTestIter
  | 0 => it
  | k + 1 => nextN (it.next).2 k

/-- The item yielded by the `(k+1)`-st call to `next`. -/
def outN (it : RoundTestIter) (k : Nat) : Option (List Nat × Nat) :=
  ((nextN it k).next).1

/-- The digit pushed by the break arm of the carry loop when it stops on a
byte `c` that is neither `'9'`, `'.'` nor `'-'` (source lines 279-291). -/
def stopDigit (ch : Nat) (policy : Policy) (c frac intc : Nat) : Nat :=
  match policy with
  | .ToEven => if 53 < ch ∨ c % 2 = 1 ∨ frac ≠ 0 ∨ intc ≠ 0 then c + 1 else c
  | .AwayFromZero => c + 1

/-! ## Lemmas about the carry loop -/

theorem incrLoop_nines_frac (ch : Nat) (pol : Policy) :
    ∀ (a : Nat) (rs : List Nat) (frac intc : Nat),
      incrLoop ch pol (List.replicate a 57 ++ rs) frac intc true =
        incrLoop ch pol rs (frac + a) intc true := by
  intro a
  induction a with
  | zero => intro rs frac intc; simp
  | succ a ih =>
      intro rs frac intc
      rw [List.replicate_succ, List.cons_append]
      rw [show incrLoop ch pol (57 :: (List.replicate a 57 ++ rs)) frac intc true =
            incrLoop ch pol (List.replicate a 57 ++ rs) (frac + 1) intc true by
        simp [incrLoop]]
      rw [ih]
      ring_nf

theorem incrLoop_dot (ch : Nat) (pol : Policy) (rs : List Nat) (frac intc : Nat)
    (isf : Bool) :
    incrLoop ch pol (46 :: rs) frac intc isf = incrLoop ch pol rs frac intc false := by
  simp [incrLoop]

theorem incrLoop_nines_int (ch : Nat) (pol : Policy) :
    ∀ (b : Nat) (rs : List Nat) (frac intc : Nat),
      incrLoop ch pol (List.replicate b 57 ++ rs) frac intc false =
        incrLoop ch pol rs frac (intc + b) false := by
  intro b
  induction b with
  | zero => intro rs frac intc; simp
  | succ b ih =>
      intro rs frac intc
      rw [List.replicate_succ, List.cons_append]
      rw [show incrLoop ch pol (57 :: (List.replicate b 57 ++ rs)) frac intc false =
            incrLoop ch pol (List.replicate b 57 ++ rs) frac (intc + 1) false by
        simp [incrLoop]]
      rw [ih]
      ring_nf

theorem incrLoop_stop (ch : Nat) (pol : Policy) (c : Nat) (rs : List Nat)
    (frac intc : Nat) (isf : Bool) (h57 : c ≠ 57) (h46 : c ≠ 46) (h45 : c ≠ 45) :
    incrLoop ch pol (c :: rs) frac intc isf =
      (stopDigit ch pol c frac intc :: rs, frac, intc, isf) := by
  cases pol <;> simp [incrLoop, stopDigit, h57, h46, h45]
  split <;> simp

theorem incrLoop_sign (ch : Nat) (pol : Policy) (rs : List Nat) (frac intc : Nat)
    (isf : Bool) :
    incrLoop ch pol (45 :: rs) frac intc isf = (49 :: 45 :: rs, frac, intc, isf) := by
  simp [incrLoop]

theorem incrLoop_nil (ch : Nat) (pol : Policy) (frac intc : Nat) (isf : Bool) :
    incrLoop ch pol [] frac intc isf = ([49], frac, intc, isf) := rfl

/-! ## Locating the radix point -/

theorem findIdx_dot_none (v : List Nat) (h : 46 ∉ v) :
    v.findIdx? (fun x => x == 46) = none := by
  rw [List.findIdx?_eq_none_iff]
  intro x hx
  simp only [beq_eq_false_iff_ne, ne_eq]
  intro he
  exact h (he ▸ hx)

theorem findIdx_dot_append (w t : List Nat) (hw : 46 ∉ w) :
    (w ++ 46 :: t).findIdx? (fun x => x == 46) = some w.length := by
  induction w with
  | nil => simp [List.findIdx?_cons]
  | cons c w ih =>
      have hc : c ≠ 46 := by
        intro he
        exact hw (by simp [he])
      have hw2 : 46 ∉ w := fun hm => hw (List.mem_cons_of_mem _ hm)
      rw [List.cons_append, List.findIdx?_cons]
      simp only [beq_iff_eq, hc, if_false, List.findIdx?_succ, ih hw2]
      simp

/-! ## Case characterization of `str_sround` on decomposed input -/

theorem sround_eq_pointPop (w t : List Nat) (p : Nat) (pol : Policy) (hw : 46 ∉ w) :
    str_sround (w ++ 46 :: t) p pol = pointPop (roundCore (w ++ 46 :: t) w.length p pol) := by
  unfold str_sround
  rw [findIdx_dot_append _ _ hw]

theorem dotlen (w t : List Nat) : (w ++ 46 :: t).length - w.length - 1 = t.length := by
  simp [List.length_append]

theorem sround_nodot (v : List Nat) (p : Nat) (pol : Policy) (h : 46 ∉ v) :
    str_sround v p pol = v ++ 46 :: List.replicate p 48 := by
  unfold str_sround
  rw [findIdx_dot_none _ h]

theorem sround_pad (w fd : List Nat) (p : Nat) (pol : Policy) (hw : 46 ∉ w)
    (h : fd.length < p) :
    str_sround (w ++ 46 :: fd) p pol =
      w ++ 46 :: (fd ++ List.replicate (p - fd.length) 48) := by
  rw [sround_eq_pointPop _ _ _ _ hw]
  unfold roundCore
  rw [dotlen]
  rw [if_pos h]
  unfold pointPop
  have hl : ((w ++ 46 :: fd) ++ List.replicate (p - fd.length) 48).length =
      w.length + 1 + p := by
    simp [List.length_append]
    omega
  simp only [hl]
  rw [if_neg (by omega)]
  simp

theorem sround_exact (w fd : List Nat) (p : Nat) (pol : Policy) (hw : 46 ∉ w)
    (h : fd.length = p) :
    str_sround (w ++ 46 :: fd) p pol = if p = 0 then w else w ++ 46 :: fd := by
  rw [sround_eq_pointPop _ _ _ _ hw]
  unfold roundCore
  rw [dotlen]
  rw [if_neg (by omega), if_neg (by omega)]
  unfold pointPop
  have hl : (w ++ 46 :: fd).length = w.length + 1 + fd.length := by
    simp [List.length_append]
    omega
  simp only [hl]
  by_cases hp : p = 0
  · subst hp
    have hfd : fd = [] := List.eq_nil_of_length_eq_zero h
    subst hfd
    rw [if_pos (by omega), if_pos rfl]
    exact List.dropLast_concat
  · rw [if_neg (by omega), if_neg hp]

theorem dot_getD (w fd : List Nat) (p : Nat) :
    (w ++ 46 :: fd).getD (w.length + p + 1) 0 = fd.getD p 0 := by
  rw [List.getD_eq_getElem?_getD, List.getD_eq_getElem?_getD]
  rw [List.getElem?_append_right (by omega)]
  have : w.length + p + 1 - w.length = p + 1 := by omega
  rw [this]
  simp

theorem dot_take (w fd : List Nat) (p : Nat) :
    (w ++ 46 :: fd).take (w.length + p + 1) = w ++ 46 :: fd.take p := by
  have h : w.length + p + 1 = w.length + (p + 1) := by omega
  rw [h, List.take_append]
  simp

theorem sround_trunclow (w fd : List Nat) (p : Nat) (pol : Policy) (hw : 46 ∉ w)
    (hlt : p < fd.length) (hch : fd.getD p 0 < 53) :
    str_sround (w ++ 46 :: fd) p pol = if p = 0 then w else w ++ 46 :: fd.take p := by
  rw [sround_eq_pointPop _ _ _ _ hw]
  unfold roundCore
  rw [dotlen]
  rw [if_neg (by omega), if_pos (by omega)]
  rw [dot_getD, dot_take]
  rw [if_neg (by omega)]
  unfold pointPop
  have hl : (w ++ 46 :: fd.take p).length = w.length + 1 + p := by
    simp [List.length_append, List.length_take]
    omega
  simp only [hl]
  by_cases hp : p = 0
  · subst hp
    rw [if_pos (by omega), if_pos rfl]
    simp
  · rw [if_neg (by omega), if_neg hp]

theorem sround_fracstop (w k0 fd : List Nat) (p d a : Nat) (pol : Policy)
    (hw : 46 ∉ w) (hlt : p < fd.length) (hch : 53 ≤ fd.getD p 0)
    (hsplit : fd.take p = k0 ++ d :: List.replicate a 57)
    (h57 : d ≠ 57) (h46 : d ≠ 46) (h45 : d ≠ 45) :
    str_sround (w ++ 46 :: fd) p pol =
      w ++ 46 :: (k0 ++ stopDigit (fd.getD p 0) pol d a 0 :: List.replicate a 48) := by
  have hp : k0.length + 1 + a = p := by
    have := congrArg List.length hsplit
    simp [List.length_take, List.length_append, List.length_replicate] at this
    omega
  rw [sround_eq_pointPop _ _ _ _ hw]
  unfold roundCore
  rw [dotlen]
  rw [if_neg (by omega), if_pos (by omega)]
  rw [dot_getD, dot_take]
  rw [if_pos hch]
  have hrev : (w ++ 46 :: fd.take p).reverse =
      List.replicate a 57 ++ d :: (k0.reverse ++ 46 :: w.reverse) := by
    rw [hsplit]
    simp [List.reverse_append]
  rw [hrev, incrLoop_nines_frac, incrLoop_stop _ _ _ _ _ _ _ h57 h46 h45]
  simp only [Nat.zero_add]
  rw [if_pos trivial]
  have hshape : (stopDigit (fd.getD p 0) pol d a 0 ::
      (k0.reverse ++ 46 :: w.reverse)).reverse ++ List.replicate a 48 =
      w ++ 46 :: (k0 ++ stopDigit (fd.getD p 0) pol d a 0 :: List.replicate a 48) := by
    simp
  rw [hshape]
  simp only [pointPop]
  have hl : (w ++ 46 :: (k0 ++ stopDigit (fd.getD p 0) pol d a 0 ::
      List.replicate a 48)).length = w.length + 1 + p := by
    simp [List.length_append]
    omega
  rw [hl]
  rw [if_neg (by omega)]

theorem sround_intstop (w0 fd : List Nat) (p d b : Nat) (pol : Policy)
    (hw : 46 ∉ w0) (hlt : p < fd.length) (hch : 53 ≤ fd.getD p 0)
    (hnine : fd.take p = List.replicate p 57)
    (h57 : d ≠ 57) (h46 : d ≠ 46) (h45 : d ≠ 45) :
    str_sround ((w0 ++ d :: List.replicate b 57) ++ 46 :: fd) p pol =
      if b = p then
        (w0 ++ stopDigit (fd.getD p 0) pol d p b ::
          (List.replicate b 48 ++ 46 :: List.replicate p 48)).dropLast
      else
        w0 ++ stopDigit (fd.getD p 0) pol d p b ::
          (List.replicate b 48 ++ 46 :: List.replicate p 48) := by
  have hw2 : 46 ∉ w0 ++ d :: List.replicate b 57 := by
    intro hm
    rcases List.mem_append.1 hm with h | h
    · exact hw h
    · rcases List.mem_cons.1 h with h | h
      · exact h46 h.symm
      · have := List.eq_of_mem_replicate h
        omega
  rw [sround_eq_pointPop _ _ _ _ hw2]
  unfold roundCore
  rw [dotlen]
  rw [if_neg (by omega), if_pos (by omega)]
  rw [dot_getD, dot_take]
  rw [if_pos hch]
  have hrev : ((w0 ++ d :: List.replicate b 57) ++ 46 :: fd.take p).reverse =
      List.replicate p 57 ++ 46 :: (List.replicate b 57 ++ d :: w0.reverse) := by
    rw [hnine]
    simp [List.reverse_append]
  rw [hrev, incrLoop_nines_frac, incrLoop_dot, incrLoop_nines_int,
    incrLoop_stop _ _ _ _ _ _ _ h57 h46 h45]
  simp only [Nat.zero_add]
  rw [if_neg (by simp)]
  have hshape : (stopDigit (fd.getD p 0) pol d p b :: w0.reverse).reverse ++
      (List.replicate b 48 ++ 46 :: List.replicate p 48) =
      w0 ++ stopDigit (fd.getD p 0) pol d p b ::
        (List.replicate b 48 ++ 46 :: List.replicate p 48) := by
    simp
  rw [hshape]
  simp only [pointPop]
  have hl : (w0 ++ stopDigit (fd.getD p 0) pol d p b ::
      (List.replicate b 48 ++ 46 :: List.replicate p 48)).length =
      w0.length + 1 + b + 1 + p := by
    simp [List.length_append]
    omega
  rw [hl]
  have hpos : (w0 ++ d :: List.replicate b 57).length = w0.length + 1 + b := by
    simp [List.length_append]
    omega
  rw [hpos]
  by_cases hbp : b = p
  · rw [if_pos (by omega), if_pos hbp]
  · rw [if_neg (by omega), if_neg hbp]

theorem sround_headstop (w0 fd : List Nat) (p b : Nat) (pol : Policy)
    (hsg : w0 = [] ∨ w0 = [45]) (hlt : p < fd.length) (hch : 53 ≤ fd.getD p 0)
    (hnine : fd.take p = List.replicate p 57) :
    str_sround ((w0 ++ List.replicate b 57) ++ 46 :: fd) p pol =
      if b = p + 1 then
        (w0 ++ 49 :: (List.replicate b 48 ++ 46 :: List.replicate p 48)).dropLast
      else
        w0 ++ 49 :: (List.replicate b 48 ++ 46 :: List.replicate p 48) := by
  have hw2 : 46 ∉ w0 ++ List.replicate b 57 := by
    intro hm
    rcases List.mem_append.1 hm with h | h
    · rcases hsg with h0 | h0 <;> subst h0 <;> simp at h
    · have := List.eq_of_mem_replicate h
      omega
  rw [sround_eq_pointPop _ _ _ _ hw2]
  unfold roundCore
  rw [dotlen]
  rw [if_neg (by omega), if_pos (by omega)]
  rw [dot_getD, dot_take]
  rw [if_pos hch]
  have hrev : ((w0 ++ List.replicate b 57) ++ 46 :: fd.take p).reverse =
      List.replicate p 57 ++ 46 :: (List.replicate b 57 ++ w0.reverse) := by
    rw [hnine]
    simp [List.reverse_append]
  rw [hrev, incrLoop_nines_frac, incrLoop_dot, incrLoop_nines_int]
  have hstop : incrLoop (fd.getD p 0) pol w0.reverse (0 + p) (0 + b) false =
      (49 :: w0.reverse, 0 + p, 0 + b, false) := by
    rcases hsg with h0 | h0 <;> subst h0
    · simp [incrLoop_nil]
    · simp [incrLoop_sign]
  rw [hstop]
  simp only [Nat.zero_add]
  rw [if_neg (by simp)]
  have hshape : (49 :: w0.reverse).reverse ++
      (List.replicate b 48 ++ 46 :: List.replicate p 48) =
      w0 ++ 49 :: (List.replicate b 48 ++ 46 :: List.replicate p 48) := by
    simp
  rw [hshape]
  simp only [pointPop]
  have hl : (w0 ++ 49 :: (List.replicate b 48 ++ 46 :: List.replicate p 48)).length =
      w0.length + 1 + b + 1 + p := by
    simp [List.length_append]
    omega
  rw [hl]
  have hpos : (w0 ++ List.replicate b 57).length = w0.length + b := by
    simp [List.length_append]
  rw [hpos]
  by_cases hbp : b = p + 1
  · rw [if_pos (by omega), if_pos hbp]
  · rw [if_neg (by omega), if_neg hbp]

/-! ## Decomposition of well-formed inputs -/

theorem isDigit_bounds (c : Nat) (h : isDigit c = true) : 48 ≤ c ∧ c ≤ 57 := by
  simpa [isDigit] using h

theorem wf_sign (v : List Nat) (h : wf v = true) :
    ∃ sg m, (sg = [] ∨ sg = [45]) ∧ v = sg ++ m ∧ wfTail m = true := by
  cases v with
  | nil => exact ⟨[], [], Or.inl rfl, rfl, rfl⟩
  | cons c m =>
      by_cases hc : c = 45
      · subst hc
        refine ⟨[45], m, Or.inr rfl, rfl, ?_⟩
        simpa [wf, stripSign] using h
      · refine ⟨[], c :: m, Or.inl rfl, rfl, ?_⟩
        simpa [wf, stripSign, hc] using h

theorem wfTail_decomp (m : List Nat) (h : wfTail m = true) :
    ((∀ c ∈ m, isDigit c = true) ∧ 46 ∉ m) ∨
      ∃ id fd, m = id ++ 46 :: fd ∧ (∀ c ∈ id, isDigit c = true) ∧ 46 ∉ id ∧
        (∀ c ∈ fd, isDigit c = true) := by
  induction m with
  | nil => exact Or.inl ⟨by simp, by simp⟩
  | cons c rest ih =>
      simp only [wfTail] at h
      by_cases hc : c = 46
      · subst hc
        rw [if_pos rfl] at h
        right
        exact ⟨[], rest, rfl, by simp, by simp, by simpa [List.all_eq_true] using h⟩
      · rw [if_neg hc, Bool.and_eq_true] at h
        have hcd := h.1
        have hcne : c ≠ 46 := hc
        rcases ih h.2 with ⟨hall, hno⟩ | ⟨id, fd, hsp, hid, hnid, hfd⟩
        · left
          constructor
          · intro x hx
            rcases List.mem_cons.1 hx with hx | hx
            · exact hx ▸ hcd
            · exact hall x hx
          · intro hx
            rcases List.mem_cons.1 hx with hx | hx
            · exact hcne hx.symm
            · exact hno hx
        · right
          refine ⟨c :: id, fd, by rw [hsp, List.cons_append], ?_, ?_, hfd⟩
          · intro x hx
            rcases List.mem_cons.1 hx with hx | hx
            · exact hx ▸ hcd
            · exact hid x hx
          · intro hx
            rcases List.mem_cons.1 hx with hx | hx
            · exact hcne hx.symm
            · exact hnid hx

theorem split_last_non9 (l : List Nat) :
    l = List.replicate l.length 57 ∨
      ∃ k0 d a, l = k0 ++ d :: List.replicate a 57 ∧ d ≠ 57 := by
  induction l with
  | nil => left; rfl
  | cons c rest ih =>
      rcases ih with h | ⟨k0, d, a, hsp, hd⟩
      · by_cases hc : c = 57
        · left
          subst hc
          rw [List.length_cons, List.replicate_succ]
          exact congrArg _ h
        · right
          refine ⟨[], c, rest.length, ?_, hc⟩
          conv_lhs => rw [h]
          simp
      · right
        exact ⟨c :: k0, d, a, by rw [hsp, List.cons_append], hd⟩

theorem stopDigit_cases (ch : Nat) (pol : Policy) (c f i : Nat) :
    stopDigit ch pol c f i = c ∨ stopDigit ch pol c f i = c + 1 := by
  cases pol with
  | ToEven =>
      by_cases h : 53 < ch ∨ c % 2 = 1 ∨ f ≠ 0 ∨ i ≠ 0
      · right; simp [stopDigit, h]
      · left; simp [stopDigit, h]
  | AwayFromZero => right; rfl

/-- Reduction of `str_sround` once the radix-point index is known. -/
theorem sround_some (n : List Nat) (p q : Nat) (pol : Policy)
    (hq : n.findIdx? (fun x => x == 46) = some q) :
    str_sround n p pol = pointPop (roundCore n q p pol) := by
  unfold str_sround
  rw [hq]

/-- Any list whose radix point sits at index `q` with exactly `p ≥ 1`
digits after it is a fixed point of rounding at `p`. -/
theorem sround_fixed (r : List Nat) (q p : Nat) (pol : Policy) (hp : 1 ≤ p)
    (hq : r.findIdx? (fun x => x == 46) = some q) (hl : r.length = q + 1 + p) :
    str_sround r p pol = r := by
  rw [sround_some _ _ _ _ hq]
  unfold roundCore
  have hprec : r.length - q - 1 = p := by omega
  rw [hprec]
  rw [if_neg (by omega), if_neg (by omega)]
  simp only [pointPop]
  rw [hl, if_neg (by omega)]

/-! ## The integer and fractional parts of a decomposed string -/

theorem lead9_replicate_cons (t d : Nat) (rest : List Nat) (hd : d ≠ 57) :
    lead9 (List.replicate t 57 ++ d :: rest) = t := by
  induction t with
  | zero => simp [lead9, hd]
  | succ t ih => simp [List.replicate_succ, lead9, ih]

theorem lead9_replicate (b : Nat) : lead9 (List.replicate b 57) = b := by
  induction b with
  | zero => rfl
  | succ b ih => simp [List.replicate_succ, lead9, ih]

theorem trail9_split (j0 : List Nat) (d t : Nat) (hd : d ≠ 57) :
    trail9 (j0 ++ d :: List.replicate t 57) = t := by
  unfold trail9
  rw [show (j0 ++ d :: List.replicate t 57).reverse =
      List.replicate t 57 ++ d :: j0.reverse by simp [List.reverse_append]]
  exact lead9_replicate_cons _ _ _ hd

theorem trail9_all9 (b : Nat) : trail9 (List.replicate b 57) = b := by
  unfold trail9
  rw [List.reverse_replicate]
  exact lead9_replicate b

theorem stripSign_decomp (sg id fd : List Nat) (hsg : sg = [] ∨ sg = [45])
    (hid : ∀ c ∈ id, isDigit c = true) :
    stripSign (sg ++ id ++ 46 :: fd) = id ++ 46 :: fd := by
  rcases hsg with h | h <;> subst h
  · cases id with
    | nil => simp [stripSign]
    | cons c id2 =>
        have := isDigit_bounds c (hid c (by simp))
        simp only [List.nil_append, List.cons_append, stripSign]
        rw [if_neg (by omega)]
  · simp [stripSign]

theorem takeWhile_int (id fd : List Nat) (hid : ∀ c ∈ id, isDigit c = true) :
    (id ++ 46 :: fd).takeWhile (fun c => c ≠ 46) = id := by
  induction id with
  | nil => simp [List.takeWhile_cons]
  | cons c id2 ih =>
      have hb := isDigit_bounds c (hid c (by simp))
      have hc : c ≠ 46 := by omega
      simp only [List.cons_append, List.takeWhile_cons]
      rw [if_pos (by simpa using hc)]
      rw [ih (fun x hx => hid x (by simp [hx]))]

theorem dropWhile_int (id fd : List Nat) (hid : ∀ c ∈ id, isDigit c = true) :
    (id ++ 46 :: fd).dropWhile (fun c => c ≠ 46) = 46 :: fd := by
  induction id with
  | nil => simp [List.dropWhile_cons]
  | cons c id2 ih =>
      have hb := isDigit_bounds c (hid c (by simp))
      have hc : c ≠ 46 := by omega
      simp only [List.cons_append, List.dropWhile_cons]
      rw [if_pos (by simpa using hc)]
      exact ih (fun x hx => hid x (by simp [hx]))

theorem intPart_decomp (sg id fd : List Nat) (hsg : sg = [] ∨ sg = [45])
    (hid : ∀ c ∈ id, isDigit c = true) :
    intPart (sg ++ id ++ 46 :: fd) = id := by
  unfold intPart
  rw [stripSign_decomp _ _ _ hsg hid]
  exact takeWhile_int _ _ hid

theorem fracPart_decomp (sg id fd : List Nat) (hsg : sg = [] ∨ sg = [45])
    (hid : ∀ c ∈ id, isDigit c = true) :
    fracPart (sg ++ id ++ 46 :: fd) = fd := by
  unfold fracPart
  rw [stripSign_decomp _ _ _ hsg hid]
  rw [dropWhile_int _ _ hid]
  rfl

/-- C1 (amended): rounding is idempotent for every well-formed DecimalString
at every precision `p ≥ 1`, provided the rounding does not hit the
mis-tracked point-removal case `badCarry` (a carry across the radix point
consuming exactly `p` integer nines before a lower digit, or an integer part
of exactly `p + 1` nines). -/
theorem round_idempotent (v : List Nat) (p : Nat) (pol : Policy)
    (hwf : wf v = true) (hp : 1 ≤ p) (hbad : badCarry v p = false) :
    str_sround (str_sround v p pol) p pol = str_sround v p pol := by
  obtain ⟨sg, m, hsg, hv, hm⟩ := wf_sign v hwf
  have hsg46 : 46 ∉ sg := by rcases hsg with h | h <;> subst h <;> simp
  rcases wfTail_decomp m hm with ⟨hall, hno⟩ | ⟨id, fd, hmsp, hid, hnid, hfd⟩
  · have hnv : 46 ∉ v := by
      subst hv
      intro hx
      rcases List.mem_append.1 hx with h | h
      · exact hsg46 h
      · exact hno h
    rw [sround_nodot v p pol hnv]
    exact sround_fixed _ v.length p pol hp (findIdx_dot_append _ _ hnv)
      (by simp [List.length_append]; omega)
  · have hv3 : v = sg ++ (id ++ 46 :: fd) := by rw [hv, hmsp]
    have hv2 : v = (sg ++ id) ++ 46 :: fd := by rw [hv3, List.append_assoc]
    have hw46 : 46 ∉ sg ++ id := by
      intro hx
      rcases List.mem_append.1 hx with h | h
      · exact hsg46 h
      · exact hnid h
    rcases Nat.lt_trichotomy fd.length p with hlen | hlen | hlen
    · rw [hv2, sround_pad _ _ _ _ hw46 hlen]
      exact sround_fixed _ (sg ++ id).length p pol hp
        (findIdx_dot_append _ _ hw46)
        (by simp [List.length_append]; omega)
    · rw [hv2, sround_exact _ _ _ _ hw46 hlen, if_neg (by omega)]
      exact sround_fixed _ (sg ++ id).length p pol hp
        (findIdx_dot_append _ _ hw46) (by simp [List.length_append]; omega)
    · by_cases hch : fd.getD p 0 < 53
      · rw [hv2, sround_trunclow _ _ _ _ hw46 hlen hch, if_neg (by omega)]
        exact sround_fixed _ (sg ++ id).length p pol hp
          (findIdx_dot_append _ _ hw46)
          (by simp [List.length_append, List.length_take]; omega)
      · push_neg at hch
        have htl : (fd.take p).length = p := by
          simp [List.length_take]
          omega
        rcases split_last_non9 (fd.take p) with h9 | ⟨k0, d, a, hsp, hd57⟩
        · -- the carry crosses the radix point
          rw [htl] at h9
          have hint : intPart v = id := by
            rw [hv2]
            exact intPart_decomp sg id fd hsg hid
          have hfrac : fracPart v = fd := by
            rw [hv2]
            exact fracPart_decomp sg id fd hsg hid
          have hcc : carryCross v p = true := by
            unfold carryCross
            rw [hfrac, decide_eq_true hlen, decide_eq_true hch, decide_eq_true h9]
            rfl
          have hX : (if trail9 id = id.length
              then decide (id.length = p + 1)
              else decide (trail9 id = p)) = false := by
            have := hbad
            unfold badCarry at this
            rw [hcc, Bool.true_and, hint] at this
            exact this
          rcases split_last_non9 id with hall9 | ⟨j0, d, t, hspl, hd57i⟩
          · -- the whole integer part is nines
            have ht9 : trail9 id = id.length := by
              conv_lhs => rw [hall9]
              exact trail9_all9 _
            rw [if_pos ht9, decide_eq_false_iff_not] at hX
            rw [hv2, hall9, sround_headstop sg fd p id.length pol hsg hlen hch h9,
              if_neg hX]
            have hshape : sg ++ 49 :: (List.replicate id.length 48 ++
                46 :: List.replicate p 48) =
                (sg ++ 49 :: List.replicate id.length 48) ++ 46 :: List.replicate p 48 := by
              simp
            rw [hshape]
            have hpre : 46 ∉ sg ++ 49 :: List.replicate id.length 48 := by
              intro hx
              rcases List.mem_append.1 hx with h | h
              · exact hsg46 h
              · rcases List.mem_cons.1 h with h | h
                · omega
                · have := List.eq_of_mem_replicate h
                  omega
            exact sround_fixed _ _ p pol hp (findIdx_dot_append _ _ hpre)
              (by simp [List.length_append]; omega)
          · -- the carry stops at an integer digit
            have hdd := isDigit_bounds d (hid d (by rw [hspl]; simp))
            have ht : trail9 id = t := by
              rw [hspl]
              exact trail9_split _ _ _ hd57i
            have hlid : id.length = j0.length + 1 + t := by
              rw [hspl]
              simp [List.length_append]
              omega
            rw [if_neg (by omega), decide_eq_false_iff_not] at hX
            rw [ht] at hX
            have hv5 : v = ((sg ++ j0) ++ d :: List.replicate t 57) ++ 46 :: fd := by
              rw [hv2, hspl]
              simp [List.append_assoc]
            have hwj : 46 ∉ sg ++ j0 := by
              intro hx
              rcases List.mem_append.1 hx with h | h
              · exact hsg46 h
              · have hb := isDigit_bounds 46
                  (hid 46 (by rw [hspl]; exact List.mem_append_left _ h))
                omega
            rw [hv5, sround_intstop (sg ++ j0) fd p d t pol hwj hlen hch h9
              (by omega) (by omega) (by omega), if_neg hX]
            have hshape : (sg ++ j0) ++ stopDigit (fd.getD p 0) pol d p t ::
                (List.replicate t 48 ++ 46 :: List.replicate p 48) =
                ((sg ++ j0) ++ stopDigit (fd.getD p 0) pol d p t ::
                  List.replicate t 48) ++ 46 :: List.replicate p 48 := by
              simp
            rw [hshape]
            have hsd : stopDigit (fd.getD p 0) pol d p t ≠ 46 := by
              rcases stopDigit_cases (fd.getD p 0) pol d p t with h | h <;> omega
            have hpre : 46 ∉ (sg ++ j0) ++ stopDigit (fd.getD p 0) pol d p t ::
                List.replicate t 48 := by
              intro hx
              rcases List.mem_append.1 hx with h | h
              · exact hwj h
              · rcases List.mem_cons.1 h with h | h
                · exact hsd h.symm
                · have := List.eq_of_mem_replicate h
                  omega
            exact sround_fixed _ _ p pol hp (findIdx_dot_append _ _ hpre)
              (by simp [List.length_append]; omega)
        · -- the carry stops inside the fractional part
          have hdd := isDigit_bounds d
            (hfd d (List.take_subset p fd (by rw [hsp]; simp)))
          rw [hv2, sround_fracstop (sg ++ id) k0 fd p d a pol hw46 hlen hch hsp
            hd57 (by omega) (by omega)]
          have hka : k0.length + 1 + a = p := by
            have := congrArg List.length hsp
            rw [htl] at this
            simp [List.length_append] at this
            omega
          have hsd : stopDigit (fd.getD p 0) pol d a 0 ≠ 46 := by
            rcases stopDigit_cases (fd.getD p 0) pol d a 0 with h | h <;> omega
          exact sround_fixed _ (sg ++ id).length p pol hp
            (findIdx_dot_append _ _ hw46)
            (by simp [List.length_append]; omega)

/-- C1, counterexample to the claim as stated: idempotence fails at
precision 0 (`"1.5"` rounds to `"2"`, which rounds again to `"2."`), and it
also fails at precision 1 on `"99.99"` (which rounds to `"100."` through the
mis-tracked point removal, and again to `"100.0"`). -/
theorem round_idempotent_cex :
    str_sround (str_sround [49, 46, 53] 0 .AwayFromZero) 0 .AwayFromZero ≠
      str_sround [49, 46, 53] 0 .AwayFromZero ∧
    str_sround (str_sround [57, 57, 46, 57, 57] 1 .AwayFromZero) 1 .AwayFromZero ≠
      str_sround [57, 57, 46, 57, 57] 1 .AwayFromZero := by
  constructor <;> decide

/-- Witness for `round_idempotent` at `v = "2.45"`, `p = 1`. -/
theorem round_idempotent_wit :
    wf [50, 46, 52, 53] = true ∧ 1 ≤ 1 ∧ badCarry [50, 46, 52, 53] 1 = false ∧
    str_sround (str_sround [50, 46, 52, 53] 1 .ToEven) 1 .ToEven =
      str_sround [50, 46, 52, 53] 1 .ToEven :=
  ⟨by decide, by decide, by decide,
    round_idempotent [50, 46, 52, 53] 1 .ToEven (by decide) (by decide) (by decide)⟩

/-- C2: with policy `ToEven` and more fractional digits than the target
precision, the digit at which the carry stops is incremented if and only if
the inspected digit exceeds `'5'`, or that digit is odd, or a digit
(necessarily a nonzero `'9'`) was consumed during carry propagation; stated
both for carries that stop inside the kept fraction and for carries that
cross the radix point and stop at an integer digit (where the consumed
digits are the `p` kept fractional nines and `b` integer nines); in
particular `"2.45"` rounds at 1 to `"2.4"` and `"2.55"` to `"2.6"`. -/
theorem round_to_even :
    (∀ (w k0 fd : List Nat) (p d a : Nat), 46 ∉ w → p < fd.length →
       53 ≤ fd.getD p 0 → fd.take p = k0 ++ d :: List.replicate a 57 →
       48 ≤ d → d ≤ 56 →
       str_sround (w ++ 46 :: fd) p .ToEven =
         w ++ 46 :: (k0 ++ (if 53 < fd.getD p 0 ∨ d % 2 = 1 ∨ a ≠ 0
           then d + 1 else d) :: List.replicate a 48)) ∧
    (∀ (w0 fd : List Nat) (p d b : Nat), 46 ∉ w0 → p < fd.length →
       53 ≤ fd.getD p 0 → fd.take p = List.replicate p 57 →
       48 ≤ d → d ≤ 56 →
       str_sround ((w0 ++ d :: List.replicate b 57) ++ 46 :: fd) p .ToEven =
         (if b = p then
           (w0 ++ (if 53 < fd.getD p 0 ∨ d % 2 = 1 ∨ p ≠ 0 ∨ b ≠ 0
             then d + 1 else d) ::
             (List.replicate b 48 ++ 46 :: List.replicate p 48)).dropLast
          else
           w0 ++ (if 53 < fd.getD p 0 ∨ d % 2 = 1 ∨ p ≠ 0 ∨ b ≠ 0
             then d + 1 else d) ::
             (List.replicate b 48 ++ 46 :: List.replicate p 48))) ∧
    str_sround [50, 46, 52, 53] 1 .ToEven = [50, 46, 52] ∧
    str_sround [50, 46, 53, 53] 1 .ToEven = [50, 46, 54] := by
  refine ⟨?_, ?_, by decide, by decide⟩
  · intro w k0 fd p d a hw hlt hch hsp hd1 hd2
    rw [sround_fracstop w k0 fd p d a .ToEven hw hlt hch hsp (by omega) (by omega)
      (by omega)]
    have hsd : stopDigit (fd.getD p 0) .ToEven d a 0 =
        if 53 < fd.getD p 0 ∨ d % 2 = 1 ∨ a ≠ 0 then d + 1 else d := by
      unfold stopDigit
      by_cases h : 53 < fd.getD p 0 ∨ d % 2 = 1 ∨ a ≠ 0
      · rw [if_pos h, if_pos (by tauto)]
      · rw [if_neg h, if_neg (by tauto)]
    rw [hsd]
  · intro w0 fd p d b hw hlt hch hnine hd1 hd2
    rw [sround_intstop w0 fd p d b .ToEven hw hlt hch hnine (by omega) (by omega)
      (by omega)]
    have hsd : stopDigit (fd.getD p 0) .ToEven d p b =
        if 53 < fd.getD p 0 ∨ d % 2 = 1 ∨ p ≠ 0 ∨ b ≠ 0 then d + 1 else d := rfl
    rw [hsd]

/-- Witness for `round_to_even`: the first conjunct applied at `"2.45"`
(`w = "2"`, `fd = "45"`, `p = 1`, stop digit `'4'`, no consumed nines), and
the second conjunct applied at `"2.95"` (`w0 = []`, stop digit `'2'`,
carry crossing the radix point after consuming the kept fractional `'9'`),
giving `"3.0"`. -/
theorem round_to_even_wit :
    str_sround [50, 46, 52, 53] 1 .ToEven = [50, 46, 52] ∧
    str_sround [50, 46, 57, 53] 1 .ToEven = [51, 46, 48] := by
  constructor
  · have h := round_to_even.1 [50] [] [52, 53] 1 52 0 (by decide) (by decide)
      (by decide) (by decide) (by decide) (by decide)
    simpa using h
  · have h := round_to_even.2.1 [] [57, 53] 1 50 0 (by decide) (by decide)
      (by decide) (by decide) (by decide) (by decide)
    simpa using h

/-- C3 (code bug): the four carry examples of the claim hold, but the
general carry description fails on `"19.99"` at precision 1: the consumed
fractional `'9'` should end as a `'0'` (giving `"20.0"`), yet the point
removal (source line 311, commented as removing the radix point when no
digit follows) pops that `'0'` because `pos += int` (source line 302)
overshoots the radix point, and the code returns `"20."`. -/
theorem round_away_carry_bug :
    str_sround [49, 57, 46, 57, 57] 1 .AwayFromZero = [50, 48, 46] ∧
    str_sround [50, 46, 52, 53] 1 .AwayFromZero = [50, 46, 53] ∧
    str_sround [45, 50, 46, 52, 53] 1 .AwayFromZero = [45, 50, 46, 53] ∧
    str_sround [57, 46, 57, 57] 1 .AwayFromZero = [49, 48, 46, 48] ∧
    str_sround [45, 57, 46, 57, 57] 1 .AwayFromZero = [45, 49, 48, 46, 48] := by
  refine ⟨by decide, by decide, by decide, by decide, by decide⟩

/-- C4, counterexample to the claim as stated: `"5"` is a well-formed
DecimalString, yet `str_sround("5", 0, AwayFromZero) = "5."` contains a
radix point (the no-radix-point branch returns without the point-removal
check); and `".5"` is a well-formed DecimalString with a radix point whose
empty integer part makes the prepended-`'1'` carry miss the point removal,
returning `"1."`. -/
theorem round_zero_no_dot_cex :
    (wf [53] = true ∧ 46 ∈ str_sround [53] 0 .AwayFromZero) ∧
    (wf [46, 53] = true ∧ 46 ∈ str_sround [46, 53] 0 .AwayFromZero) := by
  refine ⟨⟨by decide, by decide⟩, ⟨by decide, by decide⟩⟩

/-- C4 (amended): for a well-formed DecimalString that contains a radix
point, rounding at precision 0 yields a string without a radix point,
provided that when an increment occurs (the first fractional digit exists
and is at least `'5'`) the integer part either is nonempty and ends in a
digit other than `'9'`, or is exactly `"9"`; in particular
`str_sround("1.50", 0, AwayFromZero) = "2"`. -/
theorem round_zero_no_dot :
    (∀ (sg id fd : List Nat) (pol : Policy), (sg = [] ∨ sg = [45]) →
      (∀ c ∈ id, isDigit c = true) → (∀ c ∈ fd, isDigit c = true) →
      (fd = [] ∨ fd.getD 0 0 < 53 ∨ (trail9 id = 0 ∧ id ≠ []) ∨ id = [57]) →
      46 ∉ str_sround (sg ++ id ++ 46 :: fd) 0 pol) ∧
    str_sround [49, 46, 53, 48] 0 .AwayFromZero = [50] := by
  refine ⟨?_, by decide⟩
  intro sg id fd pol hsg hid hfd hcond
  have hsg46 : 46 ∉ sg := by rcases hsg with h | h <;> subst h <;> simp
  have hw46 : 46 ∉ sg ++ id := by
    intro hx
    rcases List.mem_append.1 hx with h | h
    · exact hsg46 h
    · have := isDigit_bounds 46 (hid 46 h)
      omega
  by_cases hfd0 : fd = []
  · subst hfd0
    rw [sround_exact (sg ++ id) [] 0 pol hw46 rfl, if_pos rfl]
    exact hw46
  · have hlen : 0 < fd.length := List.length_pos.2 hfd0
    by_cases hch : fd.getD 0 0 < 53
    · rw [sround_trunclow _ _ _ _ hw46 hlen hch, if_pos rfl]
      exact hw46
    · push_neg at hch
      rcases hcond with h | h | ⟨ht0, hne⟩ | h1
      · exact absurd h hfd0
      · omega
      · rcases split_last_non9 id with hall9 | ⟨j0, d, t, hspl, hd57⟩
        · exfalso
          have : trail9 id = id.length := by
            conv_lhs => rw [hall9]
            exact trail9_all9 _
          rw [ht0] at this
          exact hne (List.eq_nil_of_length_eq_zero this.symm)
        · have ht : trail9 id = t := by
            rw [hspl]
            exact trail9_split _ _ _ hd57
          have ht0' : t = 0 := by omega
          subst ht0'
          have hdd := isDigit_bounds d (hid d (by rw [hspl]; simp))
          have hwj : 46 ∉ sg ++ j0 := by
            intro hx
            rcases List.mem_append.1 hx with h | h
            · exact hsg46 h
            · have := isDigit_bounds 46
                (hid 46 (by rw [hspl]; exact List.mem_append_left _ h))
              omega
          have hshape : (sg ++ id ++ 46 :: fd : List Nat) =
              ((sg ++ j0) ++ d :: List.replicate 0 57) ++ 46 :: fd := by
            rw [hspl]
            simp
          rw [hshape, sround_intstop (sg ++ j0) fd 0 d 0 pol hwj hlen hch
            (by simp) (by omega) (by omega) (by omega), if_pos rfl]
          have hpop : ((sg ++ j0) ++ stopDigit (fd.getD 0 0) pol d 0 0 ::
              (List.replicate 0 48 ++ 46 :: List.replicate 0 48) : List Nat) =
              ((sg ++ j0) ++ [stopDigit (fd.getD 0 0) pol d 0 0]) ++ [46] := by
            simp
          rw [hpop, List.dropLast_concat]
          intro hx
          rcases List.mem_append.1 hx with h | h
          · exact hwj h
          · rcases stopDigit_cases (fd.getD 0 0) pol d 0 0 with hc | hc <;>
              rw [List.mem_singleton] at h <;> omega
      · subst h1
        have hshape : (sg ++ [57] ++ 46 :: fd : List Nat) =
            (sg ++ List.replicate 1 57) ++ 46 :: fd := by
          simp
        rw [hshape, sround_headstop sg fd 0 1 pol hsg hlen hch (by simp),
          if_pos rfl]
        have hpop : (sg ++ 49 :: (List.replicate 1 48 ++ 46 ::
            List.replicate 0 48) : List Nat) = (sg ++ [49, 48]) ++ [46] := by
          simp
        rw [hpop, List.dropLast_concat]
        intro hx
        rcases List.mem_append.1 hx with h | h
        · exact hsg46 h
        · rcases List.mem_cons.1 h with h | h
          · omega
          · rw [List.mem_singleton] at h
            omega

/-- Witness for `round_zero_no_dot` at `v = "1.50"` (`sg = []`,
`id = "1"`, `fd = "50"`). -/
theorem round_zero_no_dot_wit :
    46 ∉ str_sround ([] ++ [49] ++ 46 :: [53, 48]) 0 .AwayFromZero :=
  round_zero_no_dot.1 [] [49] [53, 48] .AwayFromZero (Or.inl rfl)
    (by decide) (by decide) (by decide)

/-- C5: for any DecimalString without a radix point, rounding appends a
radix point and exactly `p` zero digits, for every precision and policy. -/
theorem round_padding (v : List Nat) (p : Nat) (pol : Policy)
    (hwf : wf v = true) (hnd : 46 ∉ v) :
    str_sround v p pol = v ++ 46 :: List.replicate p 48 :=
  sround_nodot v p pol hnd

/-- Witness for `round_padding` at `v = "5"`, `p = 2`:
`str_sround("5", 2, ToEven) = "5.00"`. -/
theorem round_padding_wit :
    wf [53] = true ∧ 46 ∉ [53] ∧
    str_sround [53] 2 .ToEven = [53] ++ 46 :: List.replicate 2 48 :=
  ⟨by decide, by decide, round_padding [53] 2 .ToEven (by decide) (by decide)⟩

/-! ## Safety of the rounder on well-formed input -/

theorem incrLoopChecked_nines_frac (ch : Nat) (pol : Policy) :
    ∀ (a : Nat) (rs : List Nat) (frac intc : Nat),
      incrLoopChecked ch pol (List.replicate a 57 ++ rs) frac intc true =
        incrLoopChecked ch pol rs (frac + a) intc true := by
  intro a
  induction a with
  | zero => intro rs frac intc; simp
  | succ a ih =>
      intro rs frac intc
      rw [List.replicate_succ, List.cons_append]
      rw [show incrLoopChecked ch pol (57 :: (List.replicate a 57 ++ rs)) frac intc true =
            incrLoopChecked ch pol (List.replicate a 57 ++ rs) (frac + 1) intc true by
        simp [incrLoopChecked]]
      rw [ih]
      ring_nf

theorem incrLoopChecked_dot (ch : Nat) (pol : Policy) (rs : List Nat)
    (frac intc : Nat) (isf : Bool) :
    incrLoopChecked ch pol (46 :: rs) frac intc isf =
      incrLoopChecked ch pol rs frac intc false := by
  simp [incrLoopChecked]

theorem incrLoopChecked_nines_int (ch : Nat) (pol : Policy) :
    ∀ (b : Nat) (rs : List Nat) (frac intc : Nat),
      incrLoopChecked ch pol (List.replicate b 57 ++ rs) frac intc false =
        incrLoopChecked ch pol rs frac (intc + b) false := by
  intro b
  induction b with
  | zero => intro rs frac intc; simp
  | succ b ih =>
      intro rs frac intc
      rw [List.replicate_succ, List.cons_append]
      rw [show incrLoopChecked ch pol (57 :: (List.replicate b 57 ++ rs)) frac intc false =
            incrLoopChecked ch pol (List.replicate b 57 ++ rs) frac (intc + 1) false by
        simp [incrLoopChecked]]
      rw [ih]
      ring_nf

theorem incrLoopChecked_stop (ch : Nat) (pol : Policy) (c : Nat) (rs : List Nat)
    (frac intc : Nat) (isf : Bool) (h1 : 48 ≤ c) (h2 : c ≤ 56) :
    incrLoopChecked ch pol (c :: rs) frac intc isf =
      some (stopDigit ch pol c frac intc :: rs, frac, intc, isf) := by
  have h57 : c ≠ 57 := by omega
  have h46 : c ≠ 46 := by omega
  have h45 : c ≠ 45 := by omega
  cases pol with
  | ToEven =>
      by_cases hcond : 53 < ch ∨ c % 2 = 1 ∨ frac ≠ 0 ∨ intc ≠ 0
      · simp [incrLoopChecked, stopDigit, h57, h46, h45, hcond, h1, h2]
      · simp [incrLoopChecked, stopDigit, h57, h46, h45, hcond]
  | AwayFromZero => simp [incrLoopChecked, stopDigit, h57, h46, h45, h1, h2]

theorem incrLoopChecked_sign (ch : Nat) (pol : Policy) (rs : List Nat)
    (frac intc : Nat) (isf : Bool) :
    incrLoopChecked ch pol (45 :: rs) frac intc isf =
      some (49 :: 45 :: rs, frac, intc, isf) := by
  simp [incrLoopChecked]

theorem split_lead_non9 (l : List Nat) :
    l = List.replicate l.length 57 ∨
      ∃ a d l2, l = List.replicate a 57 ++ d :: l2 ∧ d ≠ 57 := by
  induction l with
  | nil => left; rfl
  | cons c rest ih =>
      by_cases hc : c = 57
      · subst hc
        rcases ih with h | ⟨a, d, l2, hsp, hd⟩
        · left
          rw [List.length_cons, List.replicate_succ]
          exact congrArg _ h
        · right
          exact ⟨a + 1, d, l2, by rw [List.replicate_succ, List.cons_append, hsp], hd⟩
      · right
        exact ⟨0, c, rest, by simp, hc⟩

/-- On a reversed buffer of the well-formed shape (reversed kept fraction,
radix point, reversed integer digits, optional sign), the checked carry loop
succeeds and agrees with the unchecked one. -/
theorem incrLoopChecked_eq (ch : Nat) (pol : Policy) (R I S : List Nat)
    (frac intc : Nat)
    (hR : ∀ c ∈ R, isDigit c = true) (hI : ∀ c ∈ I, isDigit c = true)
    (hS : S = [] ∨ S = [45]) :
    incrLoopChecked ch pol (R ++ 46 :: (I ++ S)) frac intc true =
      some (incrLoop ch pol (R ++ 46 :: (I ++ S)) frac intc true) := by
  rcases split_lead_non9 R with hR9 | ⟨a, d, l2, hsp, hd⟩
  · -- all kept fractional digits are nines: cross the dot
    rw [hR9, incrLoopChecked_nines_frac, incrLoop_nines_frac,
      incrLoopChecked_dot, incrLoop_dot]
    rcases split_lead_non9 I with hI9 | ⟨b, e, l3, hspI, he⟩
    · rw [hI9, incrLoopChecked_nines_int, incrLoop_nines_int]
      rcases hS with h | h <;> subst h
      · rfl
      · rw [incrLoopChecked_sign, incrLoop_sign]
    · have hed := isDigit_bounds e (hI e (by rw [hspI]; simp))
      rw [hspI, List.append_assoc, List.cons_append,
        incrLoopChecked_nines_int, incrLoop_nines_int,
        incrLoopChecked_stop _ _ _ _ _ _ _ (by omega) (by omega),
        incrLoop_stop _ _ _ _ _ _ _ (by omega) (by omega) (by omega)]
  · have hdd := isDigit_bounds d (hR d (by rw [hsp]; simp))
    rw [hsp, List.append_assoc, List.cons_append,
      incrLoopChecked_nines_frac, incrLoop_nines_frac,
      incrLoopChecked_stop _ _ _ _ _ _ _ (by omega) (by omega),
      incrLoop_stop _ _ _ _ _ _ _ (by omega) (by omega) (by omega)]

/-- C9: on any well-formed DecimalString the rounder runs safely for every
precision and policy: the inspected-digit lookup is in bounds and every
digit increment stays inside `'0'..'9'`, so the checked rounder succeeds and
agrees with the unchecked one. -/
theorem round_safe (n : List Nat) (pr : Nat) (pol : Policy) (hwf : wf n = true) :
    str_sroundChecked n pr pol = some (str_sround n pr pol) := by
  obtain ⟨sg, m, hsg, hv, hm⟩ := wf_sign n hwf
  have hsg46 : 46 ∉ sg := by rcases hsg with h | h <;> subst h <;> simp
  rcases wfTail_decomp m hm with ⟨hall, hno⟩ | ⟨id, fd, hmsp, hid, hnid, hfd⟩
  · have hnv : 46 ∉ n := by
      subst hv
      intro hx
      rcases List.mem_append.1 hx with h | h
      · exact hsg46 h
      · exact hno h
    unfold str_sroundChecked str_sround
    rw [findIdx_dot_none _ hnv]
  · have hv2 : n = (sg ++ id) ++ 46 :: fd := by
      rw [hv, hmsp, List.append_assoc]
    have hw46 : 46 ∉ sg ++ id := by
      intro hx
      rcases List.mem_append.1 hx with h | h
      · exact hsg46 h
      · exact hnid h
    have hfi : n.findIdx? (fun x => x == 46) = some (sg ++ id).length := by
      rw [hv2]
      exact findIdx_dot_append _ _ hw46
    unfold str_sroundChecked str_sround
    rw [hfi]
    show (roundCoreChecked n (sg ++ id).length pr pol).map pointPop =
      some (pointPop (roundCore n (sg ++ id).length pr pol))
    suffices h : roundCoreChecked n (sg ++ id).length pr pol =
        some (roundCore n (sg ++ id).length pr pol) by
      rw [h]
      rfl
    have hlen : n.length = (sg ++ id).length + 1 + fd.length := by
      rw [hv2]
      simp [List.length_append]
      omega
    have hprec : n.length - (sg ++ id).length - 1 = fd.length := by omega
    simp only [roundCoreChecked, roundCore]
    rw [hprec]
    by_cases h1 : fd.length < pr
    · simp only [if_pos h1]
    · simp only [if_neg h1]
      by_cases h2 : pr < fd.length
      · simp only [if_pos h2]
        simp only [if_pos (show (sg ++ id).length + pr + 1 < n.length by omega)]
        by_cases h3 : 53 ≤ n.getD ((sg ++ id).length + pr + 1) 0
        · simp only [if_pos h3]
          have hs1 : (n.take ((sg ++ id).length + pr + 1)).reverse =
              (fd.take pr).reverse ++ 46 :: (id.reverse ++ sg.reverse) := by
            rw [hv2, dot_take]
            simp [List.reverse_append]
          rw [hs1]
          have hRd : ∀ c ∈ (fd.take pr).reverse, isDigit c = true := by
            intro c hc
            exact hfd c (List.take_subset pr fd (List.mem_reverse.1 hc))
          have hId : ∀ c ∈ id.reverse, isDigit c = true := by
            intro c hc
            exact hid c (List.mem_reverse.1 hc)
          have hSr : sg.reverse = [] ∨ sg.reverse = [45] := by
            rcases hsg with h | h <;> subst h <;> simp
          rw [incrLoopChecked_eq _ _ _ _ _ _ _ hRd hId hSr]
          generalize incrLoop (n.getD ((sg ++ id).length + pr + 1) 0) pol
            ((fd.take pr).reverse ++ 46 :: (id.reverse ++ sg.reverse))
            0 0 true = r0
          obtain ⟨rs, frac, intc, isf⟩ := r0
          cases isf <;> simp
        · simp only [if_neg h3]
      · simp only [if_neg h2]

/-- Witness for `round_safe` at `n = "-9.99"`, `pr = 1`. -/
theorem round_safe_wit :
    wf [45, 57, 46, 57, 57] = true ∧
    str_sroundChecked [45, 57, 46, 57, 57] 1 .AwayFromZero =
      some (str_sround [45, 57, 46, 57, 57] 1 .AwayFromZero) :=
  ⟨by decide, round_safe [45, 57, 46, 57, 57] 1 .AwayFromZero (by decide)⟩

/-- C10: `f64_sround` returns the rendered string unchanged whenever the
value is not a normal float (no rounding, no padding); in particular for the
value `0.0`, which is not normal and renders as `"0"`, the result is `"0"`
for every precision and policy. -/
theorem f64_sround_non_normal :
    (∀ (α : Type) (to_string : α → List Nat) (is_normal : α → Bool) (n : α)
       (pr : Nat) (pol : Policy), is_normal n = false →
       f64_sround to_string is_normal n pr pol = to_string n) ∧
    (∀ (pr : Nat) (pol : Policy),
       f64_sround zeroToString zeroIsNormal () pr pol = [48]) := by
  constructor
  · intro α to_string is_normal n pr pol h
    unfold f64_sround
    rw [if_pos h]
  · intro pr pol
    rfl

/-- Witness for `f64_sround_non_normal`, first conjunct applied to the model
of `0.0` at precision 7. -/
theorem f64_sround_non_normal_wit :
    zeroIsNormal () = false ∧
    f64_sround zeroToString zeroIsNormal () 7 .ToEven = zeroToString () :=
  ⟨rfl, f64_sround_non_normal.1 Unit zeroToString zeroIsNormal () 7 .ToEven rfl⟩

/-! ## The generator at depth 1 -/

/-- C6: at depth 1, non-negative, the generator yields exactly
`("0.4", 0)` then `("0.5", 0)` and then nothing, and rounding these at
precision 0 gives `"0"`, `"0"`/`"1"` according to the policy. -/
theorem generator_depth_one :
    (RoundTestIter.new 1 false).next =
      (some ([48, 46, 52], 0), ⟨[48, 46, 98], 1, 1⟩) ∧
    (RoundTestIter.mk [48, 46, 98] 1 1).next =
      (some ([48, 46, 53], 0), ⟨[48], 0, 1⟩) ∧
    (∀ k, outN ⟨[48], 0, 1⟩ k = none) ∧
    str_sround [48, 46, 52] 0 .ToEven = [48] ∧
    str_sround [48, 46, 52] 0 .AwayFromZero = [48] ∧
    str_sround [48, 46, 53] 0 .ToEven = [48] ∧
    str_sround [48, 46, 53] 0 .AwayFromZero = [49] := by
  refine ⟨by decide, by decide, ?_, by decide, by decide, by decide, by decide⟩
  intro k
  have hstay : ∀ j, nextN ⟨[], 0, 1⟩ j = (⟨[], 0, 1⟩ : RoundTestIter) := by
    intro j
    induction j with
    | zero => rfl
    | succ j ih => exact ih
  cases k with
  | zero => decide
  | succ k =>
      unfold outN
      rw [show nextN (⟨[48], 0, 1⟩ : RoundTestIter) (k + 1) =
        nextN (⟨[], 0, 1⟩ : RoundTestIter) k from rfl, hstay k]
      rfl

/-! ## Generator invariant -/

/-- Exhausted generator states: what remains of the base once backtracking
has consumed the radix point. -/
def GenTerminal (b : List Nat) : Prop :=
  b = [45, 48] ∨ b = [48] ∨ b = [45] ∨ b = []

/-- A live generator state: optional sign, the integer `"0."` prefix, a
buffer of fractional digits, and a step marker `'a'` or `'b'` on top; the
precision tracks the buffer depth, bounded by `max`. -/
def GenActive (it : RoundTestIter) : Prop :=
  ∃ sg ds mk, (sg = [] ∨ sg = [45]) ∧ (∀ c ∈ ds, 48 ≤ c ∧ c ≤ 57) ∧
    (mk = 97 ∨ mk = 98) ∧ it.base = sg ++ 48 :: 46 :: (ds ++ [mk]) ∧
    it.precision = ds.length + 1 ∧ ds.length + 1 ≤ it.max

/-- The generator invariant. -/
def GenInv (it : RoundTestIter) : Prop := GenActive it ∨ GenTerminal it.base

theorem popLast_concat (xs : List Nat) (a : Nat) :
    popLast (xs ++ [a]) = some (a, xs) := by
  induction xs with
  | nil => rfl
  | cons c xs ih =>
      cases xs with
      | nil => rfl
      | cons c2 xs2 =>
          show (match popLast ((c2 :: xs2) ++ [a]) with
            | some (d, r) => some (d, c :: r)
            | none => none) = some (a, c :: c2 :: xs2)
          rw [ih]

theorem backtrackRev_nines :
    ∀ (t : Nat) (rs : List Nat) (p : Nat),
      backtrackRev (List.replicate t 57 ++ rs) p = backtrackRev rs (p - t) := by
  intro t
  induction t with
  | zero => intro rs p; simp
  | succ t ih =>
      intro rs p
      rw [List.replicate_succ, List.cons_append]
      show backtrackRev (List.replicate t 57 ++ rs) (p - 1) = backtrackRev rs (p - (t + 1))
      rw [ih]
      congr 1
      omega

theorem backtrackRev_stop (d : Nat) (rs : List Nat) (p : Nat)
    (h57 : d ≠ 57) (h46 : d ≠ 46) :
    backtrackRev (d :: rs) p = (97 :: (d + 1) :: rs, p + 1) := by
  simp [backtrackRev, h57, h46]

theorem backtrackRev_dot (rs : List Nat) (p : Nat) :
    backtrackRev (46 :: rs) p = (rs, p) := by
  simp [backtrackRev]

theorem backtrack_step (sg ds : List Nat) (hsg : sg = [] ∨ sg = [45])
    (hds : ∀ c ∈ ds, 48 ≤ c ∧ c ≤ 57) :
    (ds = List.replicate ds.length 57 ∧
      backtrack (sg ++ 48 :: 46 :: ds) ds.length = (sg ++ [48], 0)) ∨
    (∃ ds0 d t, ds = ds0 ++ d :: List.replicate t 57 ∧ d ≠ 57 ∧ 48 ≤ d ∧ d ≤ 56 ∧
      backtrack (sg ++ 48 :: 46 :: ds) ds.length =
        (sg ++ 48 :: 46 :: (ds0 ++ [d + 1] ++ [97]), ds0.length + 2)) := by
  rcases split_last_non9 ds with h9 | ⟨ds0, d, t, hsp, hd⟩
  · left
    refine ⟨h9, ?_⟩
    unfold backtrack
    have hrev : (sg ++ 48 :: 46 :: ds).reverse =
        List.replicate ds.length 57 ++ 46 :: 48 :: sg.reverse := by
      conv_lhs => rw [h9]
      simp [List.reverse_append, List.reverse_replicate]
    rw [hrev, backtrackRev_nines, backtrackRev_dot]
    simp
  · right
    have hdd := hds d (by rw [hsp]; simp)
    refine ⟨ds0, d, t, hsp, hd, hdd.1, by omega, ?_⟩
    unfold backtrack
    have hrev : (sg ++ 48 :: 46 :: ds).reverse =
        List.replicate t 57 ++ d :: (ds0.reverse ++ 46 :: 48 :: sg.reverse) := by
      conv_lhs => rw [hsp]
      simp [List.reverse_append]
    rw [hrev, backtrackRev_nines, backtrackRev_stop d _ _ hd (by omega)]
    have hlds : ds.length = ds0.length + 1 + t := by
      rw [hsp]
      simp [List.length_append]
      omega
    show ((97 :: (d + 1) :: (ds0.reverse ++ 46 :: 48 :: sg.reverse)).reverse,
        ds.length - t + 1) =
      (sg ++ 48 :: 46 :: (ds0 ++ [d + 1] ++ [97]), ds0.length + 2)
    simp only [Prod.mk.injEq]
    constructor
    · simp [List.reverse_append]
    · omega

/-- One `next` step from a live state: the invariant is preserved and the
emitted pair carries `precision - 1` and a value ending in `'4'` or `'5'`. -/
theorem gen_step (it : RoundTestIter) (h : GenActive it) :
    GenInv (it.next).2 ∧
    ∃ v, (it.next).1 = some (v, it.precision - 1) ∧
      (v.getLast? = some 52 ∨ v.getLast? = some 53) := by
  obtain ⟨sg, ds, mk, hsg, hds, hmk, hbase, hprec, hmax⟩ := h
  have hbase2 : it.base = (sg ++ 48 :: 46 :: ds) ++ [mk] := by
    rw [hbase]
    simp
  rcases hmk with h97 | h98
  · subst h97
    have hnext : it.next =
        (some ((sg ++ 48 :: 46 :: ds) ++ [52], it.precision - 1),
         ⟨(sg ++ 48 :: 46 :: ds) ++ [98], it.precision, it.max⟩) := by
      unfold RoundTestIter.next
      rw [hbase2, popLast_concat]
      norm_num
    rw [hnext]
    refine ⟨Or.inl ⟨sg, ds, 98, hsg, hds, Or.inr rfl, by simp, by simpa using hprec,
      by simpa using hmax⟩, ⟨_, rfl, Or.inl (List.getLast?_concat _)⟩⟩
  · subst h98
    by_cases hlt : it.precision < it.max
    · have hnext : it.next =
          (some ((sg ++ 48 :: 46 :: ds) ++ [53], it.precision - 1),
           ⟨(sg ++ 48 :: 46 :: ds) ++ [48, 97], it.precision + 1, it.max⟩) := by
        unfold RoundTestIter.next
        rw [hbase2, popLast_concat]
        norm_num [hlt]
      rw [hnext]
      refine ⟨Or.inl ⟨sg, ds ++ [48], 97, hsg, ?_, Or.inl rfl, by simp,
        by simp [hprec], by simp; omega⟩, ⟨_, rfl, Or.inr (List.getLast?_concat _)⟩⟩
      intro c hc
      rcases List.mem_append.1 hc with hc | hc
      · exact hds c hc
      · rw [List.mem_singleton] at hc
        omega
    · have hp1 : it.precision - 1 = ds.length := by omega
      rcases backtrack_step sg ds hsg hds with ⟨h9, hbt⟩ |
        ⟨ds0, d, t, hsp, hd, hd1, hd2, hbt⟩
      · have hnext : it.next =
            (some ((sg ++ 48 :: 46 :: ds) ++ [53], it.precision - 1),
             ⟨sg ++ [48], 0, it.max⟩) := by
          unfold RoundTestIter.next
          rw [hbase2, popLast_concat]
          norm_num [hlt, hp1, hbt]
        rw [hnext]
        refine ⟨Or.inr ?_, ⟨_, rfl, Or.inr (List.getLast?_concat _)⟩⟩
        rcases hsg with h | h <;> subst h
        · right; left; rfl
        · left; rfl
      · have hnext : it.next =
            (some ((sg ++ 48 :: 46 :: ds) ++ [53], it.precision - 1),
             ⟨sg ++ 48 :: 46 :: (ds0 ++ [d + 1] ++ [97]), ds0.length + 2,
              it.max⟩) := by
          unfold RoundTestIter.next
          rw [hbase2, popLast_concat]
          norm_num [hlt, hp1, hbt]
        rw [hnext]
        have hlds : ds.length = ds0.length + 1 + t := by
          rw [hsp]
          simp [List.length_append]
          omega
        refine ⟨Or.inl ⟨sg, ds0 ++ [d + 1], 97, hsg, ?_, Or.inl rfl, by simp,
          by simp, by simp; omega⟩, ⟨_, rfl, Or.inr (List.getLast?_concat _)⟩⟩
        intro c hc
        rcases List.mem_append.1 hc with hc | hc
        · exact hds c (by rw [hsp]; exact List.mem_append_left _ hc)
        · rw [List.mem_singleton] at hc
          omega

/-- One `next` step from an exhausted state yields nothing and stays
exhausted. -/
theorem gen_step_terminal (it : RoundTestIter) (h : GenTerminal it.base) :
    (it.next).1 = none ∧ GenTerminal (it.next).2.base := by
  rcases h with h | h | h | h <;>
    · unfold RoundTestIter.next
      rw [h]
      simp [popLast, GenTerminal, h]

/-! ## Generator termination measure -/

/-- Number of emissions of a full subtree with `j` levels below the current
marker depth: a marker alone yields 2 emissions, and each deeper level
multiplies by the 10 digit choices. -/
def T : Nat → Nat
  | 0 => 2
  | j + 1 => 2 + 10 * T j

/-- Weighted headroom of the digit buffer: a digit `d` at depth `i` still
has `57 - d` increments ahead, each worth a subtree of `T (mx - i - 1)`
emissions. -/
def W (mx : Nat) : Nat → List Nat → Nat
  | _, [] => 0
  | i, d :: ds => (57 - d) * T (mx - i - 1) + W mx (i + 1) ds

/-- Recover the digit buffer and marker from a live base. -/
def parseBase (b : List Nat) : Option (Nat × List Nat) :=
  match b with
  | 45 :: 48 :: 46 :: rest => popLast rest
  | 48 :: 46 :: rest => popLast rest
  | _ => none

/-- Upper bound on the number of remaining emissions of a generator state;
zero on exhausted states. -/
def genMeasure (it : RoundTestIter) : Nat :=
  match parseBase it.base with
  | none => 0
  | some (mk, ds) =>
      (if mk = 97 then 1 else 0) + 1 + W it.max 1 ds +
        (if ds.length + 1 < it.max then 10 * T (it.max - ds.length - 2) else 0)

theorem T_ge_two (j : Nat) : 2 ≤ T j := by
  cases j with
  | zero => simp [T]
  | succ j => simp [T]

theorem W_append (mx : Nat) :
    ∀ (xs ys : List Nat) (i : Nat),
      W mx i (xs ++ ys) = W mx i xs + W mx (i + xs.length) ys := by
  intro xs
  induction xs with
  | nil => intro ys i; simp [W]
  | cons d xs ih =>
      intro ys i
      simp only [List.cons_append, W]
      rw [show (xs.append ys : List Nat) = xs ++ ys from rfl, ih]
      simp only [List.length_cons]
      have : i + 1 + xs.length = i + (xs.length + 1) := by omega
      rw [this]
      omega

theorem W_replicate57 (mx : Nat) :
    ∀ (t i : Nat), W mx i (List.replicate t 57) = 0 := by
  intro t
  induction t with
  | zero => intro i; simp [W]
  | succ t ih =>
      intro i
      rw [List.replicate_succ]
      simp [W, ih]

theorem parse_active (sg ds : List Nat) (mk : Nat) (hsg : sg = [] ∨ sg = [45]) :
    parseBase (sg ++ 48 :: 46 :: (ds ++ [mk])) = some (mk, ds) := by
  rcases hsg with h | h <;> subst h <;>
    simp [parseBase, popLast_concat]

theorem gen_measure_active (it : RoundTestIter) (sg ds : List Nat) (mk : Nat)
    (hsg : sg = [] ∨ sg = [45])
    (hbase : it.base = sg ++ 48 :: 46 :: (ds ++ [mk])) :
    genMeasure it = (if mk = 97 then 1 else 0) + 1 + W it.max 1 ds +
      (if ds.length + 1 < it.max then 10 * T (it.max - ds.length - 2) else 0) := by
  unfold genMeasure
  rw [hbase, parse_active sg ds mk hsg]

theorem gen_measure_terminal (it : RoundTestIter) (h : GenTerminal it.base) :
    genMeasure it = 0 := by
  unfold genMeasure
  rcases h with h | h | h | h <;> rw [h] <;> rfl

theorem gen_measure_decreases (it : RoundTestIter) (h : GenActive it) :
    genMeasure (it.next).2 < genMeasure it := by
  obtain ⟨sg, ds, mk, hsg, hds, hmk, hbase, hprec, hmax⟩ := h
  have hbase2 : it.base = (sg ++ 48 :: 46 :: ds) ++ [mk] := by
    rw [hbase]
    simp
  have hmu : genMeasure it = (if mk = 97 then 1 else 0) + 1 + W it.max 1 ds +
      (if ds.length + 1 < it.max then 10 * T (it.max - ds.length - 2) else 0) :=
    gen_measure_active it sg ds mk hsg hbase
  rcases hmk with h97 | h98
  · subst h97
    have hnext : (it.next).2 =
        ⟨(sg ++ 48 :: 46 :: ds) ++ [98], it.precision, it.max⟩ := by
      unfold RoundTestIter.next
      rw [hbase2, popLast_concat]
      norm_num
    have hmu2 : genMeasure (it.next).2 = 0 + 1 + W it.max 1 ds +
        (if ds.length + 1 < it.max then 10 * T (it.max - ds.length - 2) else 0) := by
      rw [hnext]
      have h2 := gen_measure_active
        ⟨(sg ++ 48 :: 46 :: ds) ++ [98], it.precision, it.max⟩ sg ds 98 hsg (by simp)
      simpa using h2
    rw [hmu2, hmu]
    norm_num
  · subst h98
    rw [hmu]
    norm_num
    by_cases hlt : it.precision < it.max
    · -- extend one level deeper
      have hnext : (it.next).2 =
          ⟨(sg ++ 48 :: 46 :: ds) ++ [48, 97], it.precision + 1, it.max⟩ := by
        unfold RoundTestIter.next
        rw [hbase2, popLast_concat]
        norm_num [hlt]
      have hmu2 : genMeasure (it.next).2 = 1 + 1 + W it.max 1 (ds ++ [48]) +
          (if (ds ++ [48]).length + 1 < it.max
           then 10 * T (it.max - (ds ++ [48]).length - 2) else 0) := by
        rw [hnext]
        have h2 := gen_measure_active
          ⟨(sg ++ 48 :: 46 :: ds) ++ [48, 97], it.precision + 1, it.max⟩ sg
          (ds ++ [48]) 97 hsg (by simp)
        simpa using h2
      rw [hmu2]
      have hW : W it.max 1 (ds ++ [48]) =
          W it.max 1 ds + 9 * T (it.max - ds.length - 2) := by
        rw [W_append]
        have h1 : it.max - (1 + ds.length) - 1 = it.max - ds.length - 2 := by omega
        simp [W, h1]
      rw [hW]
      have hl48 : (ds ++ [48]).length = ds.length + 1 := by simp
      rw [hl48]
      have hin : ds.length + 1 < it.max := by omega
      rw [if_pos hin]
      by_cases h2 : ds.length + 1 + 1 < it.max
      · rw [if_pos h2]
        have hidx : it.max - (ds.length + 1) - 2 = it.max - ds.length - 3 := by omega
        rw [hidx]
        have hA : T (it.max - ds.length - 2) = 2 + 10 * T (it.max - ds.length - 3) := by
          have h3 : it.max - ds.length - 2 = (it.max - ds.length - 3) + 1 := by omega
          rw [h3]
          rfl
        omega
      · rw [if_neg h2]
        have hA : T (it.max - ds.length - 2) = 2 := by
          have h3 : it.max - ds.length - 2 = 0 := by omega
          rw [h3]
          rfl
        omega
    · -- backtrack
      have hp1 : it.precision - 1 = ds.length := by omega
      have hmaxeq : ds.length + 1 = it.max := by omega
      rw [if_neg (by omega)]
      rcases backtrack_step sg ds hsg hds with ⟨h9, hbt⟩ |
        ⟨ds0, d, t, hsp, hd, hd1, hd2, hbt⟩
      · -- whole buffer was nines: exhausted
        have hnext : (it.next).2 = ⟨sg ++ [48], 0, it.max⟩ := by
          unfold RoundTestIter.next
          rw [hbase2, popLast_concat]
          norm_num [hlt, hp1, hbt]
        have hmu2 : genMeasure (it.next).2 = 0 := by
          rw [hnext]
          apply gen_measure_terminal
          rcases hsg with hh | hh <;> subst hh
          · right; left; rfl
          · left; rfl
        rw [hmu2]
        omega
      · -- increment the last non-nine digit
        have hnext : (it.next).2 =
            ⟨sg ++ 48 :: 46 :: (ds0 ++ [d + 1] ++ [97]), ds0.length + 2, it.max⟩ := by
          unfold RoundTestIter.next
          rw [hbase2, popLast_concat]
          norm_num [hlt, hp1, hbt]
        have hlds : ds.length = ds0.length + 1 + t := by
          rw [hsp]
          simp [List.length_append]
          omega
        have hmu2 : genMeasure (it.next).2 = 1 + 1 + W it.max 1 (ds0 ++ [d + 1]) +
            (if (ds0 ++ [d + 1]).length + 1 < it.max
             then 10 * T (it.max - (ds0 ++ [d + 1]).length - 2) else 0) := by
          rw [hnext]
          have h2 := gen_measure_active
            ⟨sg ++ 48 :: 46 :: (ds0 ++ [d + 1] ++ [97]), ds0.length + 2, it.max⟩ sg
            (ds0 ++ [d + 1]) 97 hsg (by simp)
          simpa using h2
        rw [hmu2]
        have hWds : W it.max 1 ds =
            W it.max 1 ds0 + (57 - d) * T (it.max - ds0.length - 2) := by
          conv_lhs => rw [hsp]
          rw [W_append]
          have h1 : it.max - (1 + ds0.length) - 1 = it.max - ds0.length - 2 := by omega
          simp [W, h1, W_replicate57]
        have hWds0 : W it.max 1 (ds0 ++ [d + 1]) =
            W it.max 1 ds0 + (56 - d) * T (it.max - ds0.length - 2) := by
          rw [W_append]
          have h1 : it.max - (1 + ds0.length) - 1 = it.max - ds0.length - 2 := by omega
          have h2 : 57 - (d + 1) = 56 - d := by omega
          simp [W, h1, h2]
        rw [hWds, hWds0]
        have hsplitmul : (57 - d) * T (it.max - ds0.length - 2) =
            (56 - d) * T (it.max - ds0.length - 2) + T (it.max - ds0.length - 2) := by
          have h3 : 57 - d = (56 - d) + 1 := by omega
          rw [h3, Nat.succ_mul]
        rw [hsplitmul]
        have hl1 : (ds0 ++ [d + 1]).length = ds0.length + 1 := by simp
        rw [hl1]
        by_cases h2 : ds0.length + 1 + 1 < it.max
        · rw [if_pos h2]
          have hidx : it.max - (ds0.length + 1) - 2 = it.max - ds0.length - 3 := by
            omega
          rw [hidx]
          have hA : T (it.max - ds0.length - 2) =
              2 + 10 * T (it.max - ds0.length - 3) := by
            have h3 : it.max - ds0.length - 2 = (it.max - ds0.length - 3) + 1 := by
              omega
            rw [h3]
            rfl
          omega
        · rw [if_neg h2]
          have hA : T (it.max - ds0.length - 2) = 2 := by
            have h3 : it.max - ds0.length - 2 = 0 := by omega
            rw [h3]
            rfl
          omega

theorem gen_inv_new (D : Nat) (sign : Bool) (hD : 1 ≤ D) :
    GenInv (RoundTestIter.new D sign) := by
  left
  refine ⟨if sign then [45] else [], [], 97, ?_, by simp, Or.inl rfl, ?_, rfl, ?_⟩
  · cases sign <;> simp
  · cases sign <;> rfl
  · simpa using hD

theorem gen_inv_step (it : RoundTestIter) (h : GenInv it) : GenInv (it.next).2 := by
  rcases h with ha | ht
  · exact (gen_step it ha).1
  · exact Or.inr (gen_step_terminal it ht).2

theorem gen_inv_nextN : ∀ (k : Nat) (it : RoundTestIter), GenInv it →
    GenInv (nextN it k) := by
  intro k
  induction k with
  | zero => intro it h; exact h
  | succ k ih =>
      intro it h
      exact ih (it.next).2 (gen_inv_step it h)

theorem gen_measure_active_pos (it : RoundTestIter) (h : GenActive it) :
    1 ≤ genMeasure it := by
  obtain ⟨sg, ds, mk, hsg, hds, hmk, hbase, hprec, hmax⟩ := h
  rw [gen_measure_active it sg ds mk hsg hbase]
  omega

theorem gen_none_reachable : ∀ (N : Nat) (it : RoundTestIter),
    genMeasure it ≤ N → GenInv it → ∃ k, outN it k = none := by
  intro N
  induction N with
  | zero =>
      intro it hm hinv
      rcases hinv with ha | ht
      · have := gen_measure_active_pos it ha
        omega
      · exact ⟨0, (gen_step_terminal it ht).1⟩
  | succ N ih =>
      intro it hm hinv
      rcases hinv with ha | ht
      · have hdec := gen_measure_decreases it ha
        obtain ⟨k, hk⟩ := ih (it.next).2 (by omega) (gen_inv_step it (Or.inl ha))
        exact ⟨k + 1, hk⟩
      · exact ⟨0, (gen_step_terminal it ht).1⟩

theorem next_max (it : RoundTestIter) : (it.next).2.max = it.max := by
  unfold RoundTestIter.next
  repeat (first | rfl | split)

theorem nextN_max : ∀ (k : Nat) (it : RoundTestIter), (nextN it k).max = it.max := by
  intro k
  induction k with
  | zero => intro it; rfl
  | succ k ih =>
      intro it
      rw [show nextN it (k + 1) = nextN (it.next).2 k from rfl, ih]
      exact next_max it

/-- C7: every pair emitted by the generator at depth `D` (for any sign)
carries a precision at most `D`, and the last character of the emitted
value, the digit immediately after the kept precision, is `'4'` or `'5'`. -/
theorem generator_exhaustive (D : Nat) (sign : Bool) (hD1 : 1 ≤ D)
    (hD14 : D ≤ 14) (k : Nat) (v : List Nat) (p : Nat)
    (hout : outN (RoundTestIter.new D sign) k = some (v, p)) :
    p ≤ D ∧ (v.getLast? = some 52 ∨ v.getLast? = some 53) := by
  have hinv := gen_inv_nextN k _ (gen_inv_new D sign hD1)
  have hmaxk : (nextN (RoundTestIter.new D sign) k).max = D :=
    nextN_max k (RoundTestIter.new D sign)
  unfold outN at hout
  rcases hinv with ha | ht
  · obtain ⟨_, v2, hsome, hlast⟩ := gen_step _ ha
    rw [hout] at hsome
    obtain ⟨sg, ds, mk, _, _, _, _, hprec, hmax⟩ := ha
    have hpair := Option.some.inj hsome
    have hv1 : v = v2 := congrArg Prod.fst hpair
    have hp1 : p = (nextN (RoundTestIter.new D sign) k).precision - 1 :=
      congrArg Prod.snd hpair
    constructor
    · rw [hp1, hprec]
      omega
    · rw [hv1]
      exact hlast
  · rw [(gen_step_terminal _ ht).1] at hout
    cases hout

/-- Witness for `generator_exhaustive` at `D = 1`, non-negative,
first emission. -/
theorem generator_exhaustive_wit :
    (0 : Nat) ≤ 1 ∧
    (([48, 46, 52] : List Nat).getLast? = some 52 ∨
      ([48, 46, 52] : List Nat).getLast? = some 53) :=
  generator_exhaustive 1 false (by decide) (by decide) 0 [48, 46, 52] 0 (by decide)

/-- C8: for every depth `D ≥ 1` and either sign, the generator returns
`None` after finitely many calls to `next`: the backtracking enumeration
terminates. -/
theorem generator_terminates (D : Nat) (sign : Bool) (hD : 1 ≤ D) :
    ∃ k, outN (RoundTestIter.new D sign) k = none :=
  gen_none_reachable (genMeasure (RoundTestIter.new D sign))
    (RoundTestIter.new D sign) le_rfl (gen_inv_new D sign hD)

/-- Witness for `generator_terminates` at `D = 1`, non-negative. -/
theorem generator_terminates_wit :
    (1 : Nat) ≤ 1 ∧ ∃ k, outN (RoundTestIter.new 1 false) k = none :=
  ⟨le_rfl, generator_terminates 1 false (by decide)⟩

/-- Witness for `generator_depth_one`: the emptied iterator yields nothing
at step 3. -/
theorem generator_depth_one_wit : outN ⟨[48], 0, 1⟩ 3 = none :=
  generator_depth_one.2.2.1 3
